import Mathlib

/-!
Verification of the core rendering pipeline of the `camas/ray-tracing`
repository: a shallow embedding, in Lean 4, of the vector algebra, the
ray/sphere intersection, the axis-aligned bounding boxes, the BVH build and
traversal, the materials, the camera and the recursive radiance estimator,
together with proofs and refutations of the frozen specification claims.

Modelling conventions, used throughout:

* `f64` scalars are modelled as exact real numbers (`ℝ`).  Where the source
  relies on IEEE-754 special values (the division by a zero direction
  component in the AABB slab test, and the `t_min`/`t_max` bounds that may be
  `INFINITY` when called from `ray_color`), scalars are modelled by the type
  `FP` below, which extends `ℝ` with `+∞`, `-∞` and `NaN` and gives the
  IEEE comparison and multiplication rules for them.
* The source's `Vec3`, `Color` and `Point3` are three structurally identical
  types generated by one macro, convertible into each other by the identity
  conversion `conv`; they are modelled by the single structure `Vec3`
  (so `conv` disappears).
* Rust `Option` becomes Lean `Option`.  The thread-local random number
  generator is modelled by an arbitrary real-valued stream `g : ℕ → ℝ`
  together with a cursor that each draw advances; the random split-axis
  stream of the BVH build is an arbitrary stream `ax : ℕ → Fin 3`.
-/

noncomputable section

namespace RayTracing

/-- `Vec3` from `src/lib.rs` (`vec3_struct!`): three `f64` components.
Also stands for the macro-generated `Color` and `Point3`, which are
field-for-field identical and inter-converted by the identity `conv`. -/
@[ext]
structure Vec3 where
  x : ℝ
  y : ℝ
  z : ℝ

namespace Vec3

instance : Add Vec3 := ⟨fun a b => ⟨a.x + b.x, a.y + b.y, a.z + b.z⟩⟩
instance : Sub Vec3 := ⟨fun a b => ⟨a.x - b.x, a.y - b.y, a.z - b.z⟩⟩
instance : Neg Vec3 := ⟨fun a => ⟨-a.x, -a.y, -a.z⟩⟩
/-- Componentwise (Hadamard) product: `impl Mul for $name`. -/
instance : Mul Vec3 := ⟨fun a b => ⟨a.x * b.x, a.y * b.y, a.z * b.z⟩⟩
/-- `impl Mul<$name> for f64` (scalar times vector). -/
instance : SMul ℝ Vec3 := ⟨fun s a => ⟨s * a.x, s * a.y, s * a.z⟩⟩
/-- `impl Div<f64> for $name`. -/
instance : HDiv Vec3 ℝ Vec3 := ⟨fun a s => ⟨a.x / s, a.y / s, a.z / s⟩⟩

@[simp] theorem add_def (a b : Vec3) : a + b = ⟨a.x + b.x, a.y + b.y, a.z + b.z⟩ := rfl
@[simp] theorem sub_def (a b : Vec3) : a - b = ⟨a.x - b.x, a.y - b.y, a.z - b.z⟩ := rfl
@[simp] theorem neg_def (a : Vec3) : -a = ⟨-a.x, -a.y, -a.z⟩ := rfl
@[simp] theorem mul_def (a b : Vec3) : a * b = ⟨a.x * b.x, a.y * b.y, a.z * b.z⟩ := rfl
@[simp] theorem smul_def (s : ℝ) (a : Vec3) : s • a = ⟨s * a.x, s * a.y, s * a.z⟩ := rfl
@[simp] theorem div_def (a : Vec3) (s : ℝ) : a / s = ⟨a.x / s, a.y / s, a.z / s⟩ := rfl

/-- `length_squared` from `src/lib.rs`. -/
def length_squared (v : Vec3) : ℝ := v.x * v.x + v.y * v.y + v.z * v.z

/-- `length` from `src/lib.rs`. -/
def length (v : Vec3) : ℝ := Real.sqrt v.length_squared

/-- `dot` from `src/lib.rs`. -/
def dot (a b : Vec3) : ℝ := a.x * b.x + a.y * b.y + a.z * b.z

/-- `cross` from `src/lib.rs`. -/
def cross (a b : Vec3) : Vec3 :=
  ⟨a.y * b.z - a.z * b.y, a.z * b.x - a.x * b.z, a.x * b.y - a.y * b.x⟩

/-- `unit_vector` from `src/lib.rs`. -/
def unit_vector (v : Vec3) : Vec3 := v / v.length

/-- `Index<usize>` on the vector types; the index is always `0`, `1` or `2`
(`panic!` otherwise), so we take a `Fin 3`. -/
def nth (v : Vec3) : Fin 3 → ℝ
  | 0 => v.x
  | 1 => v.y
  | 2 => v.z

@[simp] theorem nth_zero (v : Vec3) : v.nth 0 = v.x := rfl
@[simp] theorem nth_one (v : Vec3) : v.nth 1 = v.y := rfl
@[simp] theorem nth_two (v : Vec3) : v.nth 2 = v.z := rfl

/-- `Vec3::reflect` from `src/lib.rs`. -/
def reflect (v normal : Vec3) : Vec3 := v - (2 * v.dot normal) • normal

/-- `Vec3::refract` from `src/lib.rs`. -/
def refract (uv normal : Vec3) (etai_over_etat : ℝ) : Vec3 :=
  let cos_theta := (-uv).dot normal
  let r_out_parallel := etai_over_etat • (cos_theta • normal + uv)
  let r_out_perp := (-(Real.sqrt (1 - r_out_parallel.length_squared))) • normal
  r_out_parallel + r_out_perp

end Vec3

/-- `Ray` from `src/ray.rs`. -/
structure Ray where
  origin : Vec3
  dir : Vec3
  time : ℝ

/-- `Ray::at` from `src/ray.rs`. -/
def Ray.at (r : Ray) (t : ℝ) : Vec3 := r.origin + t • r.dir

/-- The fragment of IEEE-754 `f64` needed by the source's comparisons and by
the AABB slab test: a finite value, the two infinities, or `NaN`.
`inf true` is `+∞`, `inf false` is `-∞`. -/
inductive FP where
  | nan : FP
  | inf : Bool → FP
  | fin : ℝ → FP

namespace FP

/-- IEEE `<` on the modelled fragment: `NaN` compares false with everything,
`-∞ < x` for finite `x` and for `+∞`, and finite values compare as reals. -/
def blt : FP → FP → Bool
  | .fin a, .fin b => decide (a < b)
  | .fin _, .inf true => true
  | .inf false, .fin _ => true
  | .inf false, .inf true => true
  | _, _ => false

/-- IEEE multiplication of a finite real by a modelled value: a real times an
infinity is a sign-matching infinity, except `0 * ∞ = NaN`. -/
def mulR (x : ℝ) : FP → FP
  | .fin q => .fin (x * q)
  | .inf s => if x = 0 then .nan else if 0 < x then .inf s else .inf (!s)
  | .nan => .nan

@[simp] theorem mulR_fin (x q : ℝ) : mulR x (.fin q) = .fin (x * q) := rfl
@[simp] theorem mulR_nan (x : ℝ) : mulR x .nan = .nan := rfl

@[simp] theorem blt_nan_left (a : FP) : blt .nan a = false := by cases a <;> rfl
@[simp] theorem blt_nan_right (a : FP) : blt a .nan = false := by
  cases a with
  | nan => rfl
  | inf s => cases s <;> rfl
  | fin q => rfl
@[simp] theorem blt_fin_fin (a b : ℝ) : blt (.fin a) (.fin b) = decide (a < b) := rfl
@[simp] theorem blt_fin_posinf (a : ℝ) : blt (.fin a) (.inf true) = true := rfl
@[simp] theorem blt_fin_neginf (a : ℝ) : blt (.fin a) (.inf false) = false := rfl
@[simp] theorem blt_posinf (a : FP) : blt (.inf true) a = false := by
  cases a with
  | nan => rfl
  | inf s => cases s <;> rfl
  | fin q => rfl
@[simp] theorem blt_neginf_fin (a : ℝ) : blt (.inf false) (.fin a) = true := rfl
@[simp] theorem blt_neginf_neginf : blt (.inf false) (.inf false) = false := rfl
@[simp] theorem blt_neginf_posinf : blt (.inf false) (.inf true) = true := rfl

end FP

/-- `1. / d` on an `f64` direction component: IEEE division of one by zero
yields an infinity.  The real `0` is identified with IEEE `+0` (a `-0.0`
component takes the `-∞` branch instead, and the subsequent near/far swap
makes the axis test return the same value, so no behaviour is lost). -/
def fpInv (d : ℝ) : FP := if d = 0 then .inf true else .fin (1 / d)

@[simp] theorem fpInv_zero : fpInv 0 = .inf true := by simp [fpInv]

theorem fpInv_ne {d : ℝ} (hd : d ≠ 0) : fpInv d = .fin (1 / d) := by simp [fpInv, hd]

/-- `AABB` from `src/world.rs`. -/
structure Aabb where
  min : Vec3
  max : Vec3

/-- `AABB::surrounding_box` from `src/world.rs`: componentwise minimum of the
two minima and maximum of the two maxima. -/
def Aabb.surroundingBox (a b : Aabb) : Aabb :=
  { min := ⟨Min.min a.min.x b.min.x, Min.min a.min.y b.min.y, Min.min a.min.z b.min.z⟩
    max := ⟨Max.max a.max.x b.max.x, Max.max a.max.y b.max.y, Max.max a.max.z b.max.z⟩ }

/-- One iteration of the loop body of `AABB::hit` (`src/world.rs:286-298`)
for the axis with box bounds `mn, mx`, ray origin component `o` and ray
direction component `d`.  The source's `let t_min = if t0 > t_min ...` and
`let t_max = ...` bindings are *local to the loop body* (they shadow the
function parameters and do not survive to the next iteration), so every axis
is tested against the original `t_min`/`t_max` arguments; the whole function
is therefore the conjunction of three independent axis tests. -/
def slabAxis (mn mx o d : ℝ) (t_min t_max : FP) : Bool :=
  let inv_d := fpInv d
  let t0 := FP.mulR (mn - o) inv_d
  let t1 := FP.mulR (mx - o) inv_d
  -- `if inv_d < 0. { t1 = std::mem::replace(&mut t0, t1) }`: after the
  -- conditional swap the near value is `t0'` and the far value `t1'`
  let t0' := if FP.blt inv_d (.fin 0) then t1 else t0
  let t1' := if FP.blt inv_d (.fin 0) then t0 else t1
  let t_min' := if FP.blt t_min t0' then t0' else t_min
  let t_max' := if FP.blt t1' t_max then t1' else t_max
  !(FP.blt t_max' t_min')

/-- `AABB::hit` from `src/world.rs`: the slab test, iterated over the three
axes with early return on failure. -/
def Aabb.hit (b : Aabb) (r : Ray) (t_min t_max : FP) : Bool :=
  slabAxis b.min.x b.max.x r.origin.x r.dir.x t_min t_max &&
  (slabAxis b.min.y b.max.y r.origin.y r.dir.y t_min t_max &&
   slabAxis b.min.z b.max.z r.origin.z r.dir.z t_min t_max)

/-- Membership of a point in a (closed) axis-aligned box. -/
def inAabb (b : Aabb) (p : Vec3) : Prop :=
  b.min.x ≤ p.x ∧ p.x ≤ b.max.x ∧
  b.min.y ≤ p.y ∧ p.y ≤ b.max.y ∧
  b.min.z ≤ p.z ∧ p.z ≤ b.max.z

/-- Modelled from the spec (§8): "AABB hit-testing returns true exactly when
the ray's parametric line intersects the box within `[t_min, t_max]`" — the
spec-side intersection predicate that claim C4 compares `AABB::hit` against. -/
def specBoxIntersect (b : Aabb) (r : Ray) (t_min t_max : ℝ) : Prop :=
  ∃ t : ℝ, t_min ≤ t ∧ t ≤ t_max ∧ inAabb b (r.at t)

/-- `Texture` from `src/texture.rs`, as a closed variant type.  `SolidColor`
and `Checker` are the variants the modelled scenes use; `ImageTexture`
(a decoded bitmap read from disk) and `StarTexture` are omitted — no claim
concerns them and their `value` methods play no role below. -/
inductive Texture where
  | solidColor (color : Vec3) : Texture
  | checker (odd even : Vec3) : Texture

/-- `Texture::value`.  `SolidColor` ignores its inputs; `Checker` picks by
the sign of the product of the sines of the scaled point coordinates. -/
def Texture.value (tex : Texture) (_u _v : ℝ) (point : Vec3) : Vec3 :=
  match tex with
  | .solidColor color => color
  | .checker odd even =>
      let sines := Real.sin (10 * point.x) * Real.sin (10 * point.y) * Real.sin (10 * point.z)
      if sines < 0 then odd else even

/-- `Material` from `src/material.rs`, as a closed variant type.
`Metal::new` clamps the fuzz with `fuzz.min(1.)`; the clamped value is what
the variant stores. -/
inductive Material where
  | lambertian (albedo : Texture) : Material
  | metal (albedo : Vec3) (fuzz : ℝ) : Material
  | dielectric (ri : ℝ) : Material
  | light (albedo : Texture) (color : Vec3) : Material

/-- `Metal::new` from `src/material.rs`: stores `fuzz.min(1.)`. -/
def Material.metalNew (albedo : Vec3) (fuzz : ℝ) : Material :=
  .metal albedo (Min.min fuzz 1)

/-- `HitRecord` from `src/hittable.rs`.  Its fields are exactly `point`,
`normal`, `t`, `front_face` and `material`; the struct defines **no** `u` or
`v` field (although `src/material.rs` reads `rec.u` and `rec.v` — see claim
C6).  The material reference is modelled by the `Material` value itself. -/
structure HitRecord where
  point : Vec3
  normal : Vec3
  t : ℝ
  front_face : Bool
  material : Material

/-- `schlick` from `src/lib.rs`. -/
def schlick (cosine ref_idx : ℝ) : ℝ :=
  let r0 := (1 - ref_idx) / (1 + ref_idx)
  let r0 := r0 * r0
  r0 + (1 - r0) * (1 - cosine) ^ (5 : ℕ)

/-- `rand_unit_vector` from `src/lib.rs`.  The generator is a real stream
`g` with cursor `k`; the draw of `Standard` and the draw of `uniform_unit`
each consume one stream value.  Returns the vector and the new cursor. -/
def rand_unit_vector (g : ℕ → ℝ) (k : ℕ) : Vec3 × ℕ :=
  let a := g k * 2 * Real.pi
  let z := g (k + 1)
  let r := Real.sqrt (1 - z * z)
  (⟨r * Real.cos a, r * Real.sin a, z⟩, k + 2)

/-- `Material::scatter` from `src/material.rs`, for the four variants.
Returns the optional `(scattered ray, attenuation)` plus the advanced
generator cursor.

The Lambertian attenuation in the source is
`self.albedo.value(rec.u, rec.v, rec.point)`, but `HitRecord` declares no
`u`/`v` fields (the crate does not compile as given — claim C6); the model
passes `0` for both, a choice no theorem below depends on. -/
def Material.scatter (m : Material) (ray : Ray) (rec : HitRecord)
    (g : ℕ → ℝ) (k : ℕ) : Option (Ray × Vec3) × ℕ :=
  match m with
  | .lambertian albedo =>
      let ruv := rand_unit_vector g k
      let target := rec.point + rec.normal + ruv.1
      let ray' : Ray := ⟨rec.point, target - rec.point, ray.time⟩
      (some (ray', albedo.value 0 0 rec.point), ruv.2)
  | .metal albedo fuzz =>
      let reflected := ray.dir.unit_vector.reflect rec.normal
      let ruv := rand_unit_vector g k
      let ray' : Ray := ⟨rec.point, reflected + fuzz • ruv.1, ray.time⟩
      if ray'.dir.dot rec.normal ≤ 0 then (none, ruv.2)
      else (some (ray', albedo), ruv.2)
  | .dielectric ri =>
      let attuen : Vec3 := ⟨1, 1, 1⟩
      let etai_over_etat := if rec.front_face then 1 / ri else ri
      let unit_dir := ray.dir.unit_vector
      let cos_theta := Min.min ((-unit_dir).dot rec.normal) 1
      let sin_theta := Real.sqrt (1 - cos_theta * cos_theta)
      if 1 < etai_over_etat * sin_theta then
        (some (⟨rec.point, unit_dir.reflect rec.normal, ray.time⟩, attuen), k)
      else
        let reflect_prob := schlick cos_theta ri
        let dir := if g k < reflect_prob then unit_dir.reflect rec.normal
                   else unit_dir.refract rec.normal etai_over_etat
        (some (⟨rec.point, dir, ray.time⟩, attuen), k + 1)
  | .light _ _ =>
      -- `Light::scatter` starts with an unconditional `return None;`
      -- (the code after it is unreachable).
      (none, k)

/-- The shared body of `Sphere::hit` and `MovingSphere::hit`
(`src/hittable.rs`; the two methods are verbatim duplicates except that the
moving sphere first evaluates its center at the ray's time): the quadratic
`a·t² + 2·half_b·t + c = 0` solved for `t`, the two roots tried in ascending
order, the first one strictly inside `(t_min, t_max)` returned. -/
def hitSphere (center : Vec3) (radius : ℝ) (material : Material)
    (r : Ray) (t_min t_max : FP) : Option HitRecord :=
  let oc := r.origin - center
  let a := r.dir.length_squared
  let half_b := oc.dot r.dir
  let c := oc.length_squared - radius * radius
  let discriminant := half_b * half_b - a * c
  if discriminant < 0 then none
  else
    let root := Real.sqrt discriminant
    let mkRec (t : ℝ) : HitRecord :=
      let point := r.at t
      let normal := (point - center) / radius
      let front_face := r.dir.dot normal < 0
      ⟨point, if front_face then normal else -normal, t, front_face, material⟩
    let t := (-half_b - root) / a
    if FP.blt t_min (.fin t) && FP.blt (.fin t) t_max then some (mkRec t)
    else
      let t := (-half_b + root) / a
      if FP.blt t_min (.fin t) && FP.blt (.fin t) t_max then some (mkRec t)
      else none

/-- The coefficient `a` of the sphere-hit quadratic (`let a = ray.dir.length_squared()`). -/
def sphereA (r : Ray) : ℝ := r.dir.length_squared

/-- The coefficient `half_b` of the sphere-hit quadratic (`let half_b = oc.dot(ray.dir)`). -/
def sphereHalfB (center : Vec3) (r : Ray) : ℝ := (r.origin - center).dot r.dir

/-- The coefficient `c` of the sphere-hit quadratic
(`let c = oc.length_squared() - radius * radius`). -/
def sphereCoefC (center : Vec3) (radius : ℝ) (r : Ray) : ℝ :=
  (r.origin - center).length_squared - radius * radius

/-- The discriminant `half_b * half_b - a * c` of the sphere-hit quadratic. -/
def sphereDiscriminant (center : Vec3) (radius : ℝ) (r : Ray) : ℝ :=
  sphereHalfB center r * sphereHalfB center r - sphereA r * sphereCoefC center radius r

/-- The geometry variants of the program (`Sphere` and `MovingSphere` from
`src/hittable.rs`), i.e. the `dyn Hittable` primitives a scene lists. -/
inductive Prim where
  | sphere (center : Vec3) (radius : ℝ) (material : Material) : Prim
  | movingSphere (center0 center1 : Vec3) (t0 t1 radius : ℝ) (material : Material) : Prim

/-- `MovingSphere::center`: linear interpolation between the two centers.
(In `f64`, `t1 = t0` would produce NaN coordinates; in the real model the
division is `0` — no claim involves that degenerate configuration.) -/
def msCenter (center0 center1 : Vec3) (t0 t1 t : ℝ) : Vec3 :=
  center0 + ((t - t0) / (t1 - t0)) • (center1 - center0)

/-- `Hittable::hit` dispatched over the two variants. -/
def Prim.hit (p : Prim) (r : Ray) (t_min t_max : FP) : Option HitRecord :=
  match p with
  | .sphere center radius material => hitSphere center radius material r t_min t_max
  | .movingSphere c0 c1 t0 t1 radius material =>
      hitSphere (msCenter c0 c1 t0 t1 r.time) radius material r t_min t_max

/-- `Hittable::bounding_box` dispatched over the two variants.  Both return
`Some` unconditionally in the source, so the `Option` wrapper is elided. -/
def Prim.boundingBox (p : Prim) (t0 t1 : ℝ) : Aabb :=
  match p with
  | .sphere center radius _ =>
      ⟨center - ⟨radius, radius, radius⟩, center + ⟨radius, radius, radius⟩⟩
  | .movingSphere c0 c1 s0 s1 radius _ =>
      let cA := msCenter c0 c1 s0 s1 t0
      let cB := msCenter c0 c1 s0 s1 t1
      Aabb.surroundingBox
        ⟨cA - ⟨radius, radius, radius⟩, cA + ⟨radius, radius, radius⟩⟩
        ⟨cB - ⟨radius, radius, radius⟩, cB + ⟨radius, radius, radius⟩⟩

/-- `Iterator::min_by(partial_cmp)` over hit records compared by `t`
(`src/world.rs:223-228`): the first record of minimal `t`, `none` on an
empty list. -/
def min_by_t : List HitRecord → Option HitRecord
  | [] => none
  | rec :: recs => some (recs.foldl (fun acc rec => if rec.t < acc.t then rec else acc) rec)

/-- `World::hit` from `src/world.rs`: hit-test every primitive with the same
bounds and keep the record with the smallest `t`. -/
def World.hit (hittables : List Prim) (r : Ray) (t_min t_max : FP) : Option HitRecord :=
  min_by_t (hittables.filterMap (fun h => h.hit r t_min t_max))

/-- A BVH tree: a `BvhNode` from `src/world.rs` owns exactly two children
(`left` and `right`), each either another node or a primitive (`dyn
Hittable`), plus a stored bounding box.  `make_tree` always returns a
`node`. -/
inductive Bvh where
  | prim (p : Prim) : Bvh
  | node (left right : Bvh) (bounding_box : Aabb) : Bvh

/-- `Hittable::bounding_box` as dispatched on a BVH child: a primitive
computes its box, a `BvhNode` returns its stored box (ignoring the time
arguments).  Always `Some` in the source, so the `Option` is elided. -/
def Bvh.boundingBox (b : Bvh) (t0 t1 : ℝ) : Aabb :=
  match b with
  | .prim p => p.boundingBox t0 t1
  | .node _ _ box => box

/-- `BvhNode::hit` from `src/world.rs`: prune on the stored box, otherwise
test both children and keep the hit with the smaller `t` (dispatching to
`Sphere::hit`/`MovingSphere::hit` at the leaves). -/
def Bvh.hit (b : Bvh) (r : Ray) (t_min t_max : FP) : Option HitRecord :=
  match b with
  | .prim p => p.hit r t_min t_max
  | .node left right box =>
      if !(box.hit r t_min t_max) then none
      else
        match left.hit r t_min t_max, right.hit r t_min t_max with
        | some left_rec, some right_rec =>
            if left_rec.t < right_rec.t then some left_rec else some right_rec
        | some left_rec, none => some left_rec
        | none, some right_rec => some right_rec
        | none, none => none

/-- The primitives at the leaves of a BVH tree, left to right. -/
def Bvh.leaves : Bvh → List Prim
  | .prim p => [p]
  | .node left right _ => left.leaves ++ right.leaves

/-- The structural invariant of claim C5: at every node of the tree the
stored box is `surrounding_box` of the two children's boxes (for the
`bounding_box(t0, t1)` the build queried). -/
def Bvh.wf (t0 t1 : ℝ) : Bvh → Prop
  | .prim _ => True
  | .node left right box =>
      left.wf t0 t1 ∧ right.wf t0 t1 ∧
      box = Aabb.surroundingBox (left.boundingBox t0 t1) (right.boundingBox t0 t1)

/-- Insertion step of the model of `Vec::sort_by`. -/
def insertByKey (key : Prim → ℝ) (p : Prim) : List Prim → List Prim
  | [] => [p]
  | q :: qs => if key p ≤ key q then p :: q :: qs else q :: insertByKey key p qs

/-- `hittables.sort_by(...)` from `BvhNode::make_tree`, modelled as an
insertion sort ascending by the key (the minimum of the primitive's bounding
box along the drawn axis).  The claims below depend only on the output being
a permutation of the input ordered by the key, which any correct model of
`sort_by` produces. -/
def sortByKey (key : Prim → ℝ) : List Prim → List Prim
  | [] => []
  | p :: ps => insertByKey key p (sortByKey key ps)

theorem length_insertByKey (key : Prim → ℝ) (p : Prim) (l : List Prim) :
    (insertByKey key p l).length = l.length + 1 := by
  induction l with
  | nil => rfl
  | cons q qs ih =>
      simp only [insertByKey]
      split <;> simp [ih]

theorem length_sortByKey (key : Prim → ℝ) (l : List Prim) :
    (sortByKey key l).length = l.length := by
  induction l with
  | nil => rfl
  | cons p ps ih => simp [sortByKey, length_insertByKey, ih]

/-- Outcome of `BvhNode::make_tree`: a tree plus the advanced axis-stream
cursor, the `panic!()` on a singleton list (`fatal`), or the unbounded
recursion a zero-length list would cause via `split_off(0)` (`hang`). -/
inductive MkRes where
  | ok (tree : Bvh) (k : ℕ) : MkRes
  | fatal : MkRes
  | hang : MkRes

/-- `BvhNode::make_tree` from `src/world.rs`.  `ax` is the stream of random
split axes (`rng.gen_range(0, 3)`), `k` the cursor into it; each call draws
one axis, sorts by the box minimum along it, and then:
one primitive is a `panic!`; two become the node's children directly
(`pop` removes the *last*, sorted, element first, so `left` is the later
one); three pop one leaf and recurse on the remaining pair; four or more
split at `len / 2` by count (`split_off(mid)` hands the tail to `left`,
keeps the head for `right`) and recurse on both halves. -/
def makeTree (hittables : List Prim) (t0 t1 : ℝ) (ax : ℕ → Fin 3) (k : ℕ) : MkRes :=
  match hs : sortByKey (fun h => (h.boundingBox t0 t1).min.nth (ax k)) hittables with
  | [] => .hang
  | [_] => .fatal
  | [a, b] =>
      let left := Bvh.prim b
      let right := Bvh.prim a
      let bounding_box :=
        Aabb.surroundingBox (left.boundingBox t0 t1) (right.boundingBox t0 t1)
      .ok (.node left right bounding_box) (k + 1)
  | [a, b, c] =>
      let left := Bvh.prim c
      match makeTree [a, b] t0 t1 ax (k + 1) with
      | .ok right k' =>
          let bounding_box :=
            Aabb.surroundingBox (left.boundingBox t0 t1) (right.boundingBox t0 t1)
          .ok (.node left right bounding_box) k'
      | e => e
  | a :: b :: c :: d :: rest =>
      let all := a :: b :: c :: d :: rest
      let mid := all.length / 2
      match makeTree (all.drop mid) t0 t1 ax (k + 1) with
      | .ok left k1 =>
          match makeTree (all.take mid) t0 t1 ax k1 with
          | .ok right k2 =>
              let bounding_box :=
                Aabb.surroundingBox (left.boundingBox t0 t1) (right.boundingBox t0 t1)
              .ok (.node left right bounding_box) k2
          | e => e
      | e => e
termination_by hittables.length
decreasing_by
  · have hl := length_sortByKey (fun h => (h.boundingBox t0 t1).min.nth (ax k)) hittables
    rw [hs] at hl
    simp at hl
    simp [← hl]
  · have hl := length_sortByKey (fun h => (h.boundingBox t0 t1).min.nth (ax k)) hittables
    rw [hs] at hl
    simp only [List.length_cons] at hl
    simp only [List.length_drop, List.length_cons]
    omega
  · have hl := length_sortByKey (fun h => (h.boundingBox t0 t1).min.nth (ax k)) hittables
    rw [hs] at hl
    simp only [List.length_cons] at hl
    simp only [List.length_take, List.length_cons]
    omega

/-- `MAX_CHILD_RAY_DEPTH` from `src/lib.rs`. -/
def MAX_CHILD_RAY_DEPTH : ℕ := 50

/-- The sky gradient of `ray_color` (`src/lib.rs:359-361`). -/
def skyColor (r : Ray) : Vec3 :=
  let unit_dir := r.dir.unit_vector
  let t := 0.5 * (unit_dir.y + 1)
  (1 - t) • (⟨1, 1, 1⟩ : Vec3) + t • (⟨0.5, 0.7, 1⟩ : Vec3)

/-- `ray_color` from `src/lib.rs`: at `depth >= MAX_CHILD_RAY_DEPTH` return
black; otherwise hit-test the scene with the fixed bounds
`(0.001, f64::INFINITY)`; on a hit, ask the material to scatter and recurse
at `depth + 1` multiplying by the attenuation (black when the material
absorbs); on a miss, the sky gradient. -/
def rayColor (world : List Prim) (ray : Ray) (g : ℕ → ℝ) (k : ℕ) (depth : ℕ) : Vec3 :=
  if _h : MAX_CHILD_RAY_DEPTH ≤ depth then ⟨0, 0, 0⟩
  else
    match World.hit world ray (.fin 0.001) (.inf true) with
    | some rec =>
        match Material.scatter rec.material ray rec g k with
        | (some (ray', attenuation), k') =>
            attenuation * rayColor world ray' g k' (depth + 1)
        | (none, _) => ⟨0, 0, 0⟩
    | none => skyColor ray
termination_by MAX_CHILD_RAY_DEPTH - depth
decreasing_by simp only [MAX_CHILD_RAY_DEPTH] at *; omega

/-- Fuel-indexed variant of `ray_color`, structurally recursive on the fuel:
with fuel `0` it is black, with fuel `f + 1` it performs one step of
`ray_color` and recurses with fuel `f`.  Claim C2 proves
`rayColor _ _ _ _ depth = rayColorFuel (50 - depth) _ _ _ _ depth`: the
recursion of `ray_color` nests at most `50 - depth ≤ 50` calls deep. -/
def rayColorFuel (fuel : ℕ) (world : List Prim) (ray : Ray) (g : ℕ → ℝ)
    (k : ℕ) (depth : ℕ) : Vec3 :=
  match fuel with
  | 0 => ⟨0, 0, 0⟩
  | fuel + 1 =>
    if MAX_CHILD_RAY_DEPTH ≤ depth then ⟨0, 0, 0⟩
    else
      match World.hit world ray (.fin 0.001) (.inf true) with
      | some rec =>
          match Material.scatter rec.material ray rec g k with
          | (some (ray', attenuation), k') =>
              attenuation * rayColorFuel fuel world ray' g k' (depth + 1)
          | (none, _) => ⟨0, 0, 0⟩
      | none => skyColor ray

/-- `CameraSettings` from `src/camera.rs`. -/
structure CameraSettings where
  look_from : Vec3
  look_at : Vec3
  vup : Vec3
  vfov : ℝ
  aperture : ℝ
  focus_dist : ℝ
  t0 : ℝ
  t1 : ℝ

/-- `Camera` from `src/camera.rs`.  The `time_dist = Uniform::from(t0..t1)`
field is replaced by the interval endpoints themselves; `get_ray` takes the
sampled time as an argument. -/
structure Camera where
  origin : Vec3
  lower_left_corner : Vec3
  horizontal : Vec3
  vertical : Vec3
  u : Vec3
  v : Vec3
  lens_radius : ℝ
  time0 : ℝ
  time1 : ℝ

/-- `Camera::new` from `src/camera.rs`. -/
def Camera.new (settings : CameraSettings) (aspect_ratio : ℝ) : Camera :=
  let theta := settings.vfov * Real.pi / 180
  let h := Real.tan (theta / 2)
  let viewport_height := 2 * h
  let viewport_width := aspect_ratio * viewport_height
  let w := (settings.look_from - settings.look_at).unit_vector
  let u := (settings.vup.cross w).unit_vector
  let v := w.cross u
  let origin := settings.look_from
  let horizontal := (settings.focus_dist * viewport_width) • u
  let vertical := (settings.focus_dist * viewport_height) • v
  let lower_left_corner :=
    origin - horizontal / (2 : ℝ) - vertical / (2 : ℝ) - settings.focus_dist • w
  { origin := origin
    lower_left_corner := lower_left_corner
    horizontal := horizontal
    vertical := vertical
    u := u
    v := v
    lens_radius := settings.aperture / 2
    time0 := settings.t0
    time1 := settings.t1 }

/-- `Camera::get_ray` from `src/camera.rs`.  `disk` stands for the value the
rejection loop `random_in_unit_disk` returned (a vector with `z = 0` and
squared length `< 1`) and `time` for the sample of `time_dist`; the claims
quantify over every outcome of these draws. -/
def Camera.getRay (c : Camera) (s t : ℝ) (disk : Vec3) (time : ℝ) : Ray :=
  let rd := c.lens_radius • disk
  let offset := rd.x • c.u + rd.y • c.v
  { origin := c.origin + offset
    dir := c.lower_left_corner + s • c.horizontal + t • c.vertical - c.origin - offset
    time := time }

/-! ### Lemmas about `ray_color` -/

theorem rayColor_eq_fuel (n : ℕ) :
    ∀ world ray g k depth, n = MAX_CHILD_RAY_DEPTH - depth →
      rayColor world ray g k depth = rayColorFuel n world ray g k depth := by
  induction n with
  | zero =>
      intro world ray g k depth hn
      have hd : MAX_CHILD_RAY_DEPTH ≤ depth := by omega
      rw [rayColor, dif_pos hd]
      rfl
  | succ f ih =>
      intro world ray g k depth hn
      have hd : ¬ MAX_CHILD_RAY_DEPTH ≤ depth := by omega
      rw [rayColor, dif_neg hd, rayColorFuel, if_neg hd]
      cases hW : World.hit world ray (.fin 0.001) (.inf true) with
      | none => rfl
      | some rec =>
          rcases hS : Material.scatter rec.material ray rec g k with ⟨opt, k'⟩
          show (match Material.scatter rec.material ray rec g k with
                | (some (ray', attenuation), k') =>
                    attenuation * rayColor world ray' g k' (depth + 1)
                | (none, _) => (⟨0, 0, 0⟩ : Vec3))
             = (match Material.scatter rec.material ray rec g k with
                | (some (ray', attenuation), k') =>
                    attenuation * rayColorFuel f world ray' g k' (depth + 1)
                | (none, _) => (⟨0, 0, 0⟩ : Vec3))
          rw [hS]
          cases opt with
          | none => rfl
          | some pair =>
              rcases pair with ⟨ray', attenuation⟩
              show attenuation * rayColor world ray' g k' (depth + 1) =
                attenuation * rayColorFuel f world ray' g k' (depth + 1)
              rw [ih world ray' g k' (depth + 1) (by omega)]

/-! ### Lemmas about sphere hits and `World::hit` -/

theorem foldl_min_mem (acc : HitRecord) (l : List HitRecord) :
    l.foldl (fun acc rec => if rec.t < acc.t then rec else acc) acc ∈ acc :: l := by
  induction l generalizing acc with
  | nil => simp [List.foldl]
  | cons b bs ih =>
      simp only [List.foldl]
      rcases List.mem_cons.1 (ih (if b.t < acc.t then b else acc)) with h | h
      · rw [h]
        split
        · simp
        · simp
      · simp [h]

theorem min_by_t_mem {l : List HitRecord} {rec : HitRecord}
    (h : min_by_t l = some rec) : rec ∈ l := by
  cases l with
  | nil => simp [min_by_t] at h
  | cons a as =>
      simp only [min_by_t, Option.some.injEq] at h
      have := foldl_min_mem a as
      rw [h] at this
      exact this

/-- Any record `World::hit` returns was produced by some primitive's `hit`. -/
theorem World.hit_mem {hittables : List Prim} {r : Ray} {t_min t_max : FP}
    {rec : HitRecord} (h : World.hit hittables r t_min t_max = some rec) :
    ∃ p ∈ hittables, p.hit r t_min t_max = some rec := by
  have hmem := min_by_t_mem h
  rcases List.mem_filterMap.1 hmem with ⟨p, hp, hph⟩
  exact ⟨p, hp, hph⟩

/-- A record returned by the shared sphere-hit body satisfies the strict
bound checks and carries the evaluation point and the material. -/
theorem hitSphere_some {center : Vec3} {radius : ℝ} {material : Material}
    {r : Ray} {t_min t_max : FP} {rec : HitRecord}
    (h : hitSphere center radius material r t_min t_max = some rec) :
    FP.blt t_min (.fin rec.t) = true ∧ FP.blt (.fin rec.t) t_max = true ∧
    rec.point = r.at rec.t ∧ rec.material = material := by
  simp only [hitSphere] at h
  split at h
  · exact absurd h (by simp)
  · split at h
    · rename_i hc
      rw [Bool.and_eq_true] at hc
      rcases hc with ⟨h1, h2⟩
      cases h
      exact ⟨h1, h2, rfl, rfl⟩
    · split at h
      · rename_i hc
        rw [Bool.and_eq_true] at hc
        rcases hc with ⟨h1, h2⟩
        cases h
        exact ⟨h1, h2, rfl, rfl⟩
      · exact absurd h (by simp)

/-- A record returned by `Sphere::hit`/`MovingSphere::hit` satisfies the
strict bound checks and carries the evaluation point. -/
theorem Prim.hit_some {p : Prim} {r : Ray} {t_min t_max : FP} {rec : HitRecord}
    (h : p.hit r t_min t_max = some rec) :
    FP.blt t_min (.fin rec.t) = true ∧ FP.blt (.fin rec.t) t_max = true ∧
    rec.point = r.at rec.t := by
  cases p with
  | sphere center radius material =>
      have := hitSphere_some h
      exact ⟨this.1, this.2.1, this.2.2.1⟩
  | movingSphere c0 c1 t0 t1 radius material =>
      have := hitSphere_some h
      exact ⟨this.1, this.2.1, this.2.2.1⟩

/-! ### Lemmas about the AABB slab test -/

theorem blt_left_weak {tm : FP} {t : ℝ} (h : FP.blt tm (.fin t) = true) :
    tm = .inf false ∨ ∃ a, tm = .fin a ∧ a ≤ t := by
  cases tm with
  | nan => simp at h
  | inf s => cases s with
    | true => simp at h
    | false => exact Or.inl rfl
  | fin a =>
      refine Or.inr ⟨a, rfl, ?_⟩
      simp only [FP.blt_fin_fin, decide_eq_true_eq] at h
      exact h.le

theorem blt_right_weak {tM : FP} {t : ℝ} (h : FP.blt (.fin t) tM = true) :
    tM = .inf true ∨ ∃ b, tM = .fin b ∧ t ≤ b := by
  cases tM with
  | nan => simp at h
  | inf s => cases s with
    | true => exact Or.inl rfl
    | false => simp at h
  | fin b =>
      refine Or.inr ⟨b, rfl, ?_⟩
      simp only [FP.blt_fin_fin, decide_eq_true_eq] at h
      exact h.le

/-- The final comparison of the slab loop body returns `false` (i.e. the
axis passes) whenever the near/far values around the witness parameter `t`
and the bounds are compatible with `t`. -/
theorem slab_finish (lo hi : ℝ) (t_min t_max : FP) (t : ℝ)
    (h1 : t_min = .inf false ∨ ∃ a, t_min = .fin a ∧ a ≤ t)
    (h2 : t_max = .inf true ∨ ∃ b, t_max = .fin b ∧ t ≤ b)
    (hlo : lo ≤ t) (hhi : t ≤ hi) :
    FP.blt (if FP.blt (.fin hi) t_max then .fin hi else t_max)
      (if FP.blt t_min (.fin lo) then .fin lo else t_min) = false := by
  rcases h1 with h1 | ⟨a, h1, ha⟩ <;> subst h1 <;>
    rcases h2 with h2 | ⟨b, h2, hb⟩ <;> subst h2 <;>
    simp only [FP.blt_fin_fin, FP.blt_fin_posinf, FP.blt_neginf_fin, if_true] <;>
    (try split_ifs) <;>
    simp_all only [decide_eq_true_eq, FP.blt_fin_fin, FP.blt_fin_neginf,
      FP.blt_posinf, decide_eq_false_iff_not, not_lt] <;>
    linarith

/-- Completeness of one axis of the slab test: if some parameter `t`
compatible with the bounds puts the ray inside the axis slab, the axis
test passes.  This covers the IEEE-infinity path for `d = 0`. -/
theorem slabAxis_of_between (mn mx o d : ℝ) (t_min t_max : FP) (t : ℝ)
    (h1 : t_min = .inf false ∨ ∃ a, t_min = .fin a ∧ a ≤ t)
    (h2 : t_max = .inf true ∨ ∃ b, t_max = .fin b ∧ t ≤ b)
    (hlo : mn ≤ o + t * d) (hhi : o + t * d ≤ mx) :
    slabAxis mn mx o d t_min t_max = true := by
  rcases lt_trichotomy d 0 with hd | hd | hd
  · -- negative direction component: `inv_d < 0`, near/far are swapped
    have hdne : d ≠ 0 := ne_of_lt hd
    have hcond : FP.blt (FP.fin (1 / d)) (FP.fin 0) = true := by
      simp only [FP.blt_fin_fin, decide_eq_true_eq]
      exact div_neg_of_pos_of_neg one_pos hd
    have hlo' : (mx - o) * (1 / d) ≤ t := by
      rw [mul_one_div, div_le_iff_of_neg hd]
      nlinarith
    have hhi' : t ≤ (mn - o) * (1 / d) := by
      rw [mul_one_div, le_div_iff_of_neg hd]
      nlinarith
    simp only [slabAxis, fpInv_ne hdne, FP.mulR_fin, hcond, eq_self_iff_true, if_true]
    simpa using slab_finish _ _ t_min t_max t h1 h2 hlo' hhi'
  · -- `d = 0`: `inv_d = +∞`; the products are `NaN` or an infinity and the
    -- axis test degenerates to the original bounds
    subst hd
    have hmn : mn ≤ o := by simpa using hlo
    have hmx : o ≤ mx := by simpa using hhi
    have ht0 : FP.mulR (mn - o) (.inf true) = .nan ∨
        FP.mulR (mn - o) (.inf true) = .inf false := by
      rcases eq_or_lt_of_le hmn with h | h
      · left
        simp [FP.mulR, h]
      · right
        simp only [FP.mulR, if_neg (by linarith : ¬ (mn - o = 0)),
          if_neg (by linarith : ¬ (0 < mn - o))]
        rfl
    have ht1 : FP.mulR (mx - o) (.inf true) = .nan ∨
        FP.mulR (mx - o) (.inf true) = .inf true := by
      rcases eq_or_lt_of_le hmx with h | h
      · left
        simp [FP.mulR, ← h]
      · right
        simp only [FP.mulR, if_neg (by linarith : ¬ (mx - o = 0)),
          if_pos (by linarith : (0 : ℝ) < mx - o)]
    simp only [slabAxis, fpInv_zero, FP.blt_posinf, Bool.false_eq_true, if_false]
    rcases h1 with hA | ⟨a, hA, ha⟩ <;> subst hA <;>
      rcases h2 with hB | ⟨b, hB, hb⟩ <;> subst hB <;>
      rcases ht0 with h0 | h0 <;> rw [h0] <;>
      rcases ht1 with hh1 | hh1 <;> rw [hh1] <;>
      simp_all only [FP.blt_nan_right, FP.blt_nan_left, FP.blt_posinf,
        FP.blt_fin_neginf, FP.blt_neginf_neginf, FP.blt_neginf_posinf,
        FP.blt_neginf_fin, FP.blt_fin_posinf, FP.blt_fin_fin,
        Bool.false_eq_true, if_false, if_true, Bool.not_eq_true',
        decide_eq_false_iff_not, decide_eq_true_eq, not_lt,
        Bool.not_false, Bool.not_true, eq_self_iff_true] <;>
      (try linarith)
  · -- positive direction component: no swap
    have hdne : d ≠ 0 := ne_of_gt hd
    have hcond : FP.blt (FP.fin (1 / d)) (FP.fin 0) = false := by
      simp only [FP.blt_fin_fin, decide_eq_false_iff_not, not_lt]
      positivity
    have hlo' : (mn - o) * (1 / d) ≤ t := by
      rw [mul_one_div, div_le_iff₀ hd]
      nlinarith
    have hhi' : t ≤ (mx - o) * (1 / d) := by
      rw [mul_one_div, le_div_iff₀ hd]
      nlinarith
    simp only [slabAxis, fpInv_ne hdne, FP.mulR_fin, hcond, Bool.false_eq_true, if_false]
    simpa using slab_finish _ _ t_min t_max t h1 h2 hlo' hhi'

/-- Completeness of `AABB::hit`: if the ray's line meets the (closed) box at
some parameter compatible with the bounds, the slab test reports a hit. -/
theorem aabb_hit_complete (b : Aabb) (r : Ray) (t_min t_max : FP) (t : ℝ)
    (h1 : t_min = .inf false ∨ ∃ a, t_min = .fin a ∧ a ≤ t)
    (h2 : t_max = .inf true ∨ ∃ b', t_max = .fin b' ∧ t ≤ b')
    (hp : inAabb b (r.at t)) : b.hit r t_min t_max = true := by
  rcases hp with ⟨hx1, hx2, hy1, hy2, hz1, hz2⟩
  simp only [Ray.at, Vec3.add_def, Vec3.smul_def] at hx1 hx2 hy1 hy2 hz1 hz2
  rw [Aabb.hit, Bool.and_eq_true, Bool.and_eq_true]
  exact ⟨slabAxis_of_between _ _ _ _ _ _ t h1 h2 (by linarith) (by linarith),
    slabAxis_of_between _ _ _ _ _ _ t h1 h2 (by linarith) (by linarith),
    slabAxis_of_between _ _ _ _ _ _ t h1 h2 (by linarith) (by linarith)⟩

/-! ### Lemmas about sorting, list minima and box containment -/

theorem insertByKey_perm (key : Prim → ℝ) (p : Prim) (l : List Prim) :
    (insertByKey key p l).Perm (p :: l) := by
  induction l with
  | nil => exact List.Perm.refl _
  | cons q qs ih =>
      simp only [insertByKey]
      split
      · exact List.Perm.refl _
      · exact (List.Perm.cons q ih).trans (List.Perm.swap p q qs)

theorem sortByKey_perm (key : Prim → ℝ) (l : List Prim) :
    (sortByKey key l).Perm l := by
  induction l with
  | nil => exact List.Perm.refl _
  | cons p ps ih =>
      exact (insertByKey_perm key p _).trans (List.Perm.cons p ih)

theorem real_min?_eq_some {l : List ℝ} {a : ℝ} :
    l.min? = some a ↔ a ∈ l ∧ ∀ b ∈ l, a ≤ b :=
  @List.min?_eq_some_iff ℝ a _ _ ⟨@fun _ _ h h' => le_antisymm h h'⟩
    (fun _ => le_refl _) (fun _ _ => min_choice _ _) (fun _ _ _ => le_min_iff) l

theorem real_min?_perm {l1 l2 : List ℝ} (h : l1.Perm l2) : l1.min? = l2.min? := by
  cases hm : l1.min? with
  | none =>
      rw [List.min?_eq_none_iff] at hm
      subst hm
      rw [List.Perm.eq_nil h.symm]
      rfl
  | some m =>
      rcases real_min?_eq_some.mp hm with ⟨hmem, hlb⟩
      exact (real_min?_eq_some.mpr
        ⟨h.mem_iff.mp hmem, fun b hb => hlb b (h.mem_iff.mpr hb)⟩).symm

/-- Combination of two optional minima, as produced by splitting a list. -/
def oMin : Option ℝ → Option ℝ → Option ℝ
  | none, m => m
  | some a, none => some a
  | some a, some b => some (Min.min a b)

theorem real_foldl_min (l : List ℝ) (x : ℝ) :
    l.foldl Min.min x = match l.min? with | none => x | some m => Min.min x m := by
  induction l generalizing x with
  | nil => rfl
  | cons b bs ih =>
      show bs.foldl Min.min (Min.min x b) = _
      rw [ih (Min.min x b)]
      have hbs : (b :: bs).min? = some (bs.foldl Min.min b) := rfl
      rw [hbs, ih b]
      cases hm : bs.min? with
      | none => rfl
      | some m =>
          show Min.min (Min.min x b) m = Min.min x (Min.min b m)
          exact min_assoc x b m

theorem real_min?_append (l1 l2 : List ℝ) :
    (l1 ++ l2).min? = oMin l1.min? l2.min? := by
  cases l1 with
  | nil => rfl
  | cons a as =>
      have h1 : (a :: as ++ l2).min? = some ((as ++ l2).foldl Min.min a) := rfl
      rw [h1, List.foldl_append, real_foldl_min l2 (as.foldl Min.min a)]
      have h2 : (a :: as).min? = some (as.foldl Min.min a) := rfl
      rw [h2]
      cases hm : l2.min? with
      | none => rfl
      | some m => rfl

theorem hitlist_foldl_t (as : List HitRecord) (acc : HitRecord) :
    (as.foldl (fun acc rec => if rec.t < acc.t then rec else acc) acc).t =
      (as.map (·.t)).foldl Min.min acc.t := by
  induction as generalizing acc with
  | nil => rfl
  | cons b bs ih =>
      show (bs.foldl _ (if b.t < acc.t then b else acc)).t =
        (bs.map (·.t)).foldl Min.min (Min.min acc.t b.t)
      rw [ih]
      have hstep : (if b.t < acc.t then b else acc).t = Min.min acc.t b.t := by
        split
        · next h => exact (min_eq_right h.le).symm
        · next h => exact (min_eq_left (not_lt.mp h)).symm
      rw [hstep]

theorem map_t_min_by_t (l : List HitRecord) :
    (min_by_t l).map (·.t) = (l.map (·.t)).min? := by
  cases l with
  | nil => rfl
  | cons a as =>
      show some ((as.foldl _ a).t) = some ((as.map (·.t)).foldl Min.min a.t)
      rw [hitlist_foldl_t]

theorem inAabb_surr_left {a : Aabb} (b : Aabb) {p : Vec3} (h : inAabb a p) :
    inAabb (Aabb.surroundingBox a b) p := by
  rcases h with ⟨h1, h2, h3, h4, h5, h6⟩
  exact ⟨le_trans (min_le_left _ _) h1, le_trans h2 (le_max_left _ _),
    le_trans (min_le_left _ _) h3, le_trans h4 (le_max_left _ _),
    le_trans (min_le_left _ _) h5, le_trans h6 (le_max_left _ _)⟩

theorem inAabb_surr_right (a : Aabb) {b : Aabb} {p : Vec3} (h : inAabb b p) :
    inAabb (Aabb.surroundingBox a b) p := by
  rcases h with ⟨h1, h2, h3, h4, h5, h6⟩
  exact ⟨le_trans (min_le_right _ _) h1, le_trans h2 (le_max_right _ _),
    le_trans (min_le_right _ _) h3, le_trans h4 (le_max_right _ _),
    le_trans (min_le_right _ _) h5, le_trans h6 (le_max_right _ _)⟩

/-- In a well-formed tree, every leaf's box is contained in the tree's box. -/
theorem leaves_box_mono (t0 t1 : ℝ) (tr : Bvh) (hwf : tr.wf t0 t1)
    {p : Prim} (hp : p ∈ tr.leaves) {pt : Vec3}
    (h : inAabb (p.boundingBox t0 t1) pt) :
    inAabb (tr.boundingBox t0 t1) pt := by
  induction tr with
  | prim q =>
      rcases List.mem_singleton.mp hp with rfl
      exact h
  | node l r box ihl ihr =>
      obtain ⟨hwl, hwr, hbox⟩ := hwf
      rw [Bvh.boundingBox, hbox]
      rcases List.mem_append.mp hp with hp | hp
      · exact inAabb_surr_left _ (ihl hwl hp)
      · exact inAabb_surr_right _ (ihr hwr hp)

/-! ### Unfolding equations for `make_tree` -/

theorem makeTree_eq_nil {hs : List Prim} {t0 t1 : ℝ} {ax : ℕ → Fin 3} {k : ℕ}
    (h : sortByKey (fun h => (Prim.boundingBox h t0 t1).min.nth (ax k)) hs = []) :
    makeTree hs t0 t1 ax k = .hang := by
  rw [makeTree]
  split
  · rfl
  · rename_i a heq
    rw [h] at heq
    cases heq
  · rename_i a b heq
    rw [h] at heq
    cases heq
  · rename_i a b c heq
    rw [h] at heq
    cases heq
  · rename_i a b c d rest heq
    rw [h] at heq
    cases heq

theorem makeTree_eq_one {hs : List Prim} {t0 t1 : ℝ} {ax : ℕ → Fin 3} {k : ℕ} {a : Prim}
    (h : sortByKey (fun h => (Prim.boundingBox h t0 t1).min.nth (ax k)) hs = [a]) :
    makeTree hs t0 t1 ax k = .fatal := by
  rw [makeTree]
  split
  · rename_i heq
    rw [h] at heq
    cases heq
  · rfl
  · rename_i x y heq
    rw [h] at heq
    cases heq
  · rename_i x y z heq
    rw [h] at heq
    cases heq
  · rename_i x y z w rest heq
    rw [h] at heq
    cases heq

theorem makeTree_eq_two {hs : List Prim} {t0 t1 : ℝ} {ax : ℕ → Fin 3} {k : ℕ} {a b : Prim}
    (h : sortByKey (fun h => (Prim.boundingBox h t0 t1).min.nth (ax k)) hs = [a, b]) :
    makeTree hs t0 t1 ax k =
      .ok (.node (.prim b) (.prim a)
        (Aabb.surroundingBox ((Bvh.prim b).boundingBox t0 t1)
          ((Bvh.prim a).boundingBox t0 t1))) (k + 1) := by
  rw [makeTree]
  split
  · rename_i heq
    rw [h] at heq
    cases heq
  · rename_i x heq
    rw [h] at heq
    cases heq
  · rename_i x y heq
    rw [h] at heq
    cases heq
    rfl
  · rename_i x y z heq
    rw [h] at heq
    cases heq
  · rename_i x y z w rest heq
    rw [h] at heq
    cases heq

theorem makeTree_eq_three {hs : List Prim} {t0 t1 : ℝ} {ax : ℕ → Fin 3} {k : ℕ}
    {a b c : Prim}
    (h : sortByKey (fun h => (Prim.boundingBox h t0 t1).min.nth (ax k)) hs = [a, b, c]) :
    makeTree hs t0 t1 ax k =
      (match makeTree [a, b] t0 t1 ax (k + 1) with
       | .ok right k' =>
           .ok (.node (.prim c) right
             (Aabb.surroundingBox ((Bvh.prim c).boundingBox t0 t1)
               (right.boundingBox t0 t1))) k'
       | e => e) := by
  rw [makeTree]
  split
  · rename_i heq
    rw [h] at heq
    cases heq
  · rename_i x heq
    rw [h] at heq
    cases heq
  · rename_i x y heq
    rw [h] at heq
    cases heq
  · rename_i x y z heq
    rw [h] at heq
    cases heq
    rfl
  · rename_i x y z w rest heq
    rw [h] at heq
    cases heq

theorem makeTree_eq_big {hs : List Prim} {t0 t1 : ℝ} {ax : ℕ → Fin 3} {k : ℕ}
    {a b c d : Prim} {rest : List Prim}
    (h : sortByKey (fun h => (Prim.boundingBox h t0 t1).min.nth (ax k)) hs =
      a :: b :: c :: d :: rest) :
    makeTree hs t0 t1 ax k =
      (match makeTree ((a :: b :: c :: d :: rest).drop
          ((a :: b :: c :: d :: rest).length / 2)) t0 t1 ax (k + 1) with
       | .ok left k1 =>
           (match makeTree ((a :: b :: c :: d :: rest).take
               ((a :: b :: c :: d :: rest).length / 2)) t0 t1 ax k1 with
            | .ok right k2 =>
                .ok (.node left right
                  (Aabb.surroundingBox (left.boundingBox t0 t1)
                    (right.boundingBox t0 t1))) k2
            | e => e)
       | e => e) := by
  rw [makeTree]
  split
  · rename_i heq
    rw [h] at heq
    cases heq
  · rename_i x heq
    rw [h] at heq
    cases heq
  · rename_i x y heq
    rw [h] at heq
    cases heq
  · rename_i x y z heq
    rw [h] at heq
    cases heq
  · rename_i x y z w rest' heq
    rw [h] at heq
    cases heq
    rfl

/-! ### The `make_tree` master lemma -/

/-- Everything claims C1, C5 and C7 need about `BvhNode::make_tree`: on
any list of at least two primitives it returns a tree normally, and any
returned tree satisfies the box invariant and has exactly the input
primitives (as a multiset) at its leaves. -/
theorem makeTree_spec :
    ∀ (n : ℕ) (hs : List Prim), hs.length ≤ n → ∀ (t0 t1 : ℝ) (ax : ℕ → Fin 3) (k : ℕ),
    (2 ≤ hs.length → ∃ tr k', makeTree hs t0 t1 ax k = .ok tr k') ∧
    (∀ tr k', makeTree hs t0 t1 ax k = .ok tr k' →
      tr.wf t0 t1 ∧ tr.leaves.Perm hs) := by
  intro n
  induction n with
  | zero =>
      intro hs hlen t0 t1 ax k
      have hnil : hs = [] := List.length_eq_zero.mp (Nat.le_zero.mp hlen)
      subst hnil
      refine ⟨fun h2 => by simp at h2, fun tr k' h => ?_⟩
      rw [@makeTree_eq_nil [] t0 t1 ax k rfl] at h
      cases h
  | succ m ih =>
      intro hs hlen t0 t1 ax k
      have hperm : (sortByKey (fun h => (Prim.boundingBox h t0 t1).min.nth (ax k)) hs).Perm hs :=
        sortByKey_perm _ hs
      have hlensort :
          (sortByKey (fun h => (Prim.boundingBox h t0 t1).min.nth (ax k)) hs).length =
            hs.length := hperm.length_eq
      rcases hsort : sortByKey (fun h => (Prim.boundingBox h t0 t1).min.nth (ax k)) hs with
        _ | ⟨a, _ | ⟨b, _ | ⟨c, _ | ⟨d, rest⟩⟩⟩⟩ <;>
        rw [hsort] at hperm hlensort <;>
        simp only [List.length_cons, List.length_nil] at hlensort
      · -- empty input: would recurse forever (`hang`)
        refine ⟨fun h2 => by omega, fun tr k' h => ?_⟩
        rw [makeTree_eq_nil hsort] at h
        cases h
      · -- singleton: `panic!` (`fatal`)
        refine ⟨fun h2 => by omega, fun tr k' h => ?_⟩
        rw [makeTree_eq_one hsort] at h
        cases h
      · -- two primitives: a leaf pair node
        refine ⟨fun _ => ⟨_, _, makeTree_eq_two hsort⟩, fun tr k' h => ?_⟩
        rw [makeTree_eq_two hsort] at h
        cases h
        exact ⟨⟨trivial, trivial, rfl⟩, (List.Perm.swap a b []).trans hperm⟩
      · -- three primitives: pop one leaf, recurse on the remaining pair
        have hm2 : (2 : ℕ) ≤ m := by omega
        have ihab := ih [a, b] (by simp; omega) t0 t1 ax (k + 1)
        obtain ⟨trR, kR, hokR⟩ := ihab.1 (by simp)
        obtain ⟨hwfR, hpermR⟩ := ihab.2 trR kR hokR
        constructor
        · intro _
          exact ⟨.node (.prim c) trR
            (Aabb.surroundingBox ((Bvh.prim c).boundingBox t0 t1)
              (trR.boundingBox t0 t1)), kR,
            by rw [makeTree_eq_three hsort, hokR]⟩
        · intro tr k' h
          rw [makeTree_eq_three hsort] at h
          simp only [hokR] at h
          cases h
          refine ⟨⟨trivial, hwfR, rfl⟩, ?_⟩
          show (c :: trR.leaves).Perm hs
          refine ((List.Perm.cons c hpermR).trans ?_).trans hperm
          exact @List.perm_append_comm _ [c] [a, b]
      · -- four or more: split by count at `len / 2`, recurse on both halves
        have hdropLen : ((a :: b :: c :: d :: rest).drop
            ((a :: b :: c :: d :: rest).length / 2)).length ≤ m := by
          simp only [List.length_drop, List.length_cons]
          omega
        have hdrop2 : 2 ≤ ((a :: b :: c :: d :: rest).drop
            ((a :: b :: c :: d :: rest).length / 2)).length := by
          simp only [List.length_drop, List.length_cons]
          omega
        have ihL := ih _ hdropLen t0 t1 ax (k + 1)
        obtain ⟨trL, kL, hokL⟩ := ihL.1 hdrop2
        obtain ⟨hwfL, hpermL⟩ := ihL.2 trL kL hokL
        have htakeLen : ((a :: b :: c :: d :: rest).take
            ((a :: b :: c :: d :: rest).length / 2)).length ≤ m := by
          simp only [List.length_take, List.length_cons]
          omega
        have htake2 : 2 ≤ ((a :: b :: c :: d :: rest).take
            ((a :: b :: c :: d :: rest).length / 2)).length := by
          simp only [List.length_take, List.length_cons]
          omega
        have ihR := ih _ htakeLen t0 t1 ax kL
        obtain ⟨trR, kR, hokR⟩ := ihR.1 htake2
        obtain ⟨hwfR, hpermR⟩ := ihR.2 trR kR hokR
        constructor
        · intro _
          exact ⟨.node trL trR
            (Aabb.surroundingBox (trL.boundingBox t0 t1) (trR.boundingBox t0 t1)), kR,
            by rw [makeTree_eq_big hsort, hokL]; simp only [hokR]⟩
        · intro tr k' h
          rw [makeTree_eq_big hsort] at h
          simp only [hokL, hokR] at h
          cases h
          refine ⟨⟨hwfL, hwfR, rfl⟩, ?_⟩
          show (trL.leaves ++ trR.leaves).Perm hs
          refine ((hpermL.append hpermR).trans ?_).trans hperm
          exact List.perm_append_comm.trans (by rw [List.take_append_drop])

/-! ### BVH traversal versus the linear scan -/

/-- Over a well-formed tree whose leaf hits stay inside the leaf boxes,
`BvhNode::hit` computes exactly the minimum `t` of the leaf hits: the box
pruning never discards a real hit (by `aabb_hit_complete`) and the
two-child combination is the binary minimum. -/
theorem bvh_hit_min (t0 t1 : ℝ) (r : Ray) (t_min t_max : FP) (tr : Bvh)
    (hwf : tr.wf t0 t1)
    (H : ∀ p ∈ tr.leaves, ∀ rec, p.hit r t_min t_max = some rec →
        inAabb (p.boundingBox t0 t1) rec.point) :
    (tr.hit r t_min t_max).map (·.t) =
      ((tr.leaves.filterMap (fun p => p.hit r t_min t_max)).map (·.t)).min? := by
  induction tr with
  | prim p =>
      show (p.hit r t_min t_max).map (·.t) = _
      simp only [Bvh.leaves, List.filterMap]
      cases hp : p.hit r t_min t_max with
      | none => rfl
      | some rec => rfl
  | node l r' box ihl ihr =>
      obtain ⟨hwl, hwr, hbox⟩ := hwf
      have Hl : ∀ p ∈ l.leaves, ∀ rec, p.hit r t_min t_max = some rec →
          inAabb (p.boundingBox t0 t1) rec.point :=
        fun p hp => H p (List.mem_append_left _ hp)
      have Hr : ∀ p ∈ r'.leaves, ∀ rec, p.hit r t_min t_max = some rec →
          inAabb (p.boundingBox t0 t1) rec.point :=
        fun p hp => H p (List.mem_append_right _ hp)
      have IHl := ihl hwl Hl
      have IHr := ihr hwr Hr
      have hleaves : (Bvh.node l r' box).leaves = l.leaves ++ r'.leaves := rfl
      by_cases hb : box.hit r t_min t_max = true
      · -- the box passes: the node combines the two children by smaller `t`
        have hstep : (Bvh.node l r' box).hit r t_min t_max =
            (match l.hit r t_min t_max, r'.hit r t_min t_max with
             | some left_rec, some right_rec =>
                 if left_rec.t < right_rec.t then some left_rec else some right_rec
             | some left_rec, none => some left_rec
             | none, some right_rec => some right_rec
             | none, none => none) := by
          rw [Bvh.hit, hb]
          rfl
        rw [hstep, hleaves, List.filterMap_append, List.map_append, real_min?_append,
          ← IHl, ← IHr]
        cases hl : l.hit r t_min t_max with
        | none =>
            cases hr : r'.hit r t_min t_max with
            | none => rfl
            | some b' => rfl
        | some a' =>
            cases hr : r'.hit r t_min t_max with
            | none => rfl
            | some b' =>
                show (if a'.t < b'.t then some a' else some b').map (·.t) =
                  oMin (some a'.t) (some b'.t)
                split
                · next h => exact congrArg some (min_eq_left h.le).symm
                · next h => exact congrArg some (min_eq_right (not_lt.mp h)).symm
      · -- the box fails: no leaf of this subtree can have a hit, because a
        -- hit point lies in the leaf box, hence in the node box, and the
        -- slab test is complete
        have hnone : ∀ p ∈ (Bvh.node l r' box).leaves,
            p.hit r t_min t_max = none := by
          intro p hp
          cases hph : p.hit r t_min t_max with
          | none => rfl
          | some rec =>
              exfalso
              obtain ⟨hb1, hb2, hpt⟩ := Prim.hit_some hph
              have hin : inAabb (p.boundingBox t0 t1) rec.point := H p hp rec hph
              have hin2 : inAabb ((Bvh.node l r' box).boundingBox t0 t1) rec.point :=
                leaves_box_mono t0 t1 (Bvh.node l r' box) ⟨hwl, hwr, hbox⟩ hp hin
              rw [Bvh.boundingBox] at hin2
              rw [hpt] at hin2
              exact hb (aabb_hit_complete box r t_min t_max rec.t
                (blt_left_weak hb1) (blt_right_weak hb2) hin2)
        have hfm : (Bvh.node l r' box).leaves.filterMap
            (fun p => p.hit r t_min t_max) = [] :=
          List.filterMap_eq_nil.mpr hnone
        have hbf : box.hit r t_min t_max = false := by
          simpa using hb
        have hhit : (Bvh.node l r' box).hit r t_min t_max = none := by
          rw [Bvh.hit, hbf]
          rfl
        rw [hhit, hfm]
        rfl

/-! ### Claim C1 -/

/-- **C1** (amended): for every scene of 2 to 200 primitives, hit-testing
the BVH built by `BvhNode::make_tree` returns a hit with the same closest
parameter `t` as the brute-force linear scan `World::hit` with the same
bounds, *provided* every hit a primitive reports for this ray lies inside
that primitive's bounding box for the build interval `[t0, t1]` — which
holds for every `Sphere`, and for a `MovingSphere` whenever the ray's time
lies inside the build interval.  Without that proviso the equivalence fails
(`bvh_world_hit_disagree`): a `MovingSphere` queried at a time outside
`[t0, t1]` sits outside its build-time box, and the BVH prunes away a hit
the linear scan reports. -/
theorem bvh_hit_eq_world_hit (hs : List Prim) (t0 t1 : ℝ) (ax : ℕ → Fin 3) (k : ℕ)
    (r : Ray) (t_min t_max : FP) (tr : Bvh) (k' : ℕ)
    (hlen2 : 2 ≤ hs.length) (hlen200 : hs.length ≤ 200)
    (hmk : makeTree hs t0 t1 ax k = .ok tr k')
    (H : ∀ p ∈ hs, ∀ rec, p.hit r t_min t_max = some rec →
        inAabb (p.boundingBox t0 t1) rec.point) :
    (Bvh.hit tr r t_min t_max).map (·.t) =
      (World.hit hs r t_min t_max).map (·.t) := by
  obtain ⟨hwf, hperm⟩ := (makeTree_spec hs.length hs le_rfl t0 t1 ax k).2 tr k' hmk
  have Hl : ∀ p ∈ tr.leaves, ∀ rec, p.hit r t_min t_max = some rec →
      inAabb (p.boundingBox t0 t1) rec.point :=
    fun p hp => H p (hperm.subset hp)
  rw [bvh_hit_min t0 t1 r t_min t_max tr hwf Hl, World.hit, map_t_min_by_t]
  exact real_min?_perm ((hperm.filterMap _).map _)

/-! ### Claim C5 -/

/-- **C5**: every tree `BvhNode::make_tree` returns satisfies, at every
node, the invariant that the stored bounding box is exactly
`surrounding_box` of the two children's boxes (componentwise minimum of the
minima and maximum of the maxima) — and by the very shape of `Bvh.node`,
every internal node owns exactly two children. -/
theorem make_tree_box_invariant (hs : List Prim) (t0 t1 : ℝ) (ax : ℕ → Fin 3)
    (k k' : ℕ) (tr : Bvh) (hmk : makeTree hs t0 t1 ax k = .ok tr k') :
    tr.wf t0 t1 :=
  ((makeTree_spec hs.length hs le_rfl t0 t1 ax k).2 tr k' hmk).1

/-! ### Claim C7 -/

/-- **C7**: `BvhNode::make_tree` treats a one-element list as a fatal
caller-contract violation (`panic!()`, modelled by `.fatal`), and on any
list of two or more primitives it terminates normally with a tree — the
singleton panic is unreachable from such inputs because every recursive
call receives a strictly shorter list of length at least two. -/
theorem make_tree_singleton_contract :
    (∀ (hs : List Prim), hs.length = 1 → ∀ (t0 t1 : ℝ) (ax : ℕ → Fin 3) (k : ℕ),
        makeTree hs t0 t1 ax k = .fatal) ∧
    (∀ (hs : List Prim), 2 ≤ hs.length → ∀ (t0 t1 : ℝ) (ax : ℕ → Fin 3) (k : ℕ),
        ∃ tr k', makeTree hs t0 t1 ax k = .ok tr k') := by
  constructor
  · intro hs hlen t0 t1 ax k
    have hlen1 : (sortByKey (fun h => (Prim.boundingBox h t0 t1).min.nth (ax k)) hs).length
        = 1 := by
      rw [(sortByKey_perm _ hs).length_eq, hlen]
    obtain ⟨a, ha⟩ := List.length_eq_one.mp hlen1
    exact makeTree_eq_one ha
  · intro hs hl t0 t1 ax k
    exact (makeTree_spec hs.length hs le_rfl t0 t1 ax k).1 hl

/-! ### Concrete scenes for the BVH claims -/

/-- A concrete diffuse material. -/
def witMat : Material := .lambertian (.solidColor ⟨1, 1, 1⟩)

/-- Unit sphere at the origin. -/
def witP1 : Prim := .sphere ⟨0, 0, 0⟩ 1 witMat

/-- Unit sphere at `(3,0,0)`. -/
def witP2 : Prim := .sphere ⟨3, 0, 0⟩ 1 witMat

/-- The tree `make_tree` builds over `[witP1, witP2]`. -/
def witTree : Bvh :=
  .node (.prim witP2) (.prim witP1)
    (Aabb.surroundingBox ((Bvh.prim witP2).boundingBox 0 1)
      ((Bvh.prim witP1).boundingBox 0 1))

theorem witSort :
    sortByKey (fun h => (Prim.boundingBox h 0 1).min.nth 0) [witP1, witP2] =
      [witP1, witP2] := by
  norm_num [sortByKey, insertByKey, witP1, witP2, Prim.boundingBox]

theorem witMk : makeTree [witP1, witP2] 0 1 (fun _ => 0) 0 = .ok witTree 1 :=
  makeTree_eq_two witSort

/-- Witness for C5 at the concrete two-sphere scene. -/
theorem make_tree_box_invariant_witness : Bvh.wf 0 1 witTree :=
  make_tree_box_invariant [witP1, witP2] 0 1 (fun _ => 0) 0 1 witTree witMk

/-- Witness for C7: the singleton panic at a concrete primitive and the
normal result at the concrete two-sphere scene. -/
theorem make_tree_singleton_contract_witness :
    makeTree [witP1] 0 1 (fun _ => 0) 0 = .fatal ∧
    ∃ tr k', makeTree [witP1, witP2] 0 1 (fun _ => 0) 0 = .ok tr k' :=
  ⟨make_tree_singleton_contract.1 [witP1] rfl 0 1 (fun _ => 0) 0,
   make_tree_singleton_contract.2 [witP1, witP2] (by norm_num) 0 1 (fun _ => 0) 0⟩

theorem witHit1 :
    Prim.hit witP1 ⟨⟨0, 0, -3⟩, ⟨0, 0, 1⟩, 0⟩ (.fin 0) (.fin 100) =
      some ⟨⟨0, 0, -1⟩, ⟨0, 0, -1⟩, 2, true, witMat⟩ := by
  simp only [witP1, Prim.hit, hitSphere, Vec3.sub_def, Vec3.dot, Vec3.length_squared,
    Ray.at, Vec3.smul_def, Vec3.add_def, Vec3.div_def]
  norm_num [FP.blt, Real.sqrt_one]

theorem witHit2 :
    Prim.hit witP2 ⟨⟨0, 0, -3⟩, ⟨0, 0, 1⟩, 0⟩ (.fin 0) (.fin 100) = none := by
  simp only [witP2, Prim.hit, hitSphere, Vec3.sub_def, Vec3.dot, Vec3.length_squared]
  norm_num

/-- Witness for C1 at the concrete two-sphere scene: the BVH and the linear
scan agree on the closest hit. -/
theorem bvh_hit_eq_world_hit_witness :
    makeTree [witP1, witP2] 0 1 (fun _ => 0) 0 = .ok witTree 1 ∧
    (Bvh.hit witTree ⟨⟨0, 0, -3⟩, ⟨0, 0, 1⟩, 0⟩ (.fin 0) (.fin 100)).map (·.t) =
      (World.hit [witP1, witP2] ⟨⟨0, 0, -3⟩, ⟨0, 0, 1⟩, 0⟩
        (.fin 0) (.fin 100)).map (·.t) := by
  refine ⟨witMk, ?_⟩
  refine bvh_hit_eq_world_hit [witP1, witP2] 0 1 (fun _ => 0) 0 _ (.fin 0) (.fin 100)
    witTree 1 (by norm_num) (by norm_num) witMk ?_
  intro p hp rec hrec
  rcases List.mem_cons.mp hp with rfl | hp
  · rw [witHit1] at hrec
    cases hrec
    norm_num [inAabb, Prim.boundingBox, witP1]
  · rcases List.mem_cons.mp hp with rfl | hp
    · rw [witHit2] at hrec
      cases hrec
    · cases hp

/-- The moving sphere of the C1 counterexample: it travels from the origin
to `(0,1,0)` over the exposure interval `[0, 1]`. -/
def cMove : Prim := .movingSphere ⟨0, 0, 0⟩ ⟨0, 1, 0⟩ 0 1 1 witMat

/-- The static sphere of the C1 counterexample. -/
def cStat : Prim := .sphere ⟨5, 0, 0⟩ 1 witMat

/-- The tree `make_tree` builds over `[cMove, cStat]` for `[t0,t1] = [0,1]`. -/
def cTree : Bvh :=
  .node (.prim cStat) (.prim cMove)
    (Aabb.surroundingBox ((Bvh.prim cStat).boundingBox 0 1)
      ((Bvh.prim cMove).boundingBox 0 1))

/-- The C1 counterexample ray: its time `100` lies far outside the build
interval `[0, 1]`, so the moving sphere is at `(0,100,0)`, far outside its
build-time bounding box. -/
def cRay : Ray := ⟨⟨0, 100, -3⟩, ⟨0, 0, 1⟩, 100⟩

/-- The hit the linear scan reports for `cRay` (on the moving sphere). -/
def cRec : HitRecord := ⟨⟨0, 100, -1⟩, ⟨0, 0, -1⟩, 2, true, witMat⟩

theorem cSort :
    sortByKey (fun h => (Prim.boundingBox h 0 1).min.nth 0) [cMove, cStat] =
      [cMove, cStat] := by
  norm_num [sortByKey, insertByKey, cMove, cStat, Prim.boundingBox, msCenter,
    Aabb.surroundingBox, min_def, max_def]

theorem cMk : makeTree [cMove, cStat] 0 1 (fun _ => 0) 0 = .ok cTree 1 :=
  makeTree_eq_two cSort

theorem cTree_hit_none :
    Bvh.hit cTree cRay (.fin 0.001) (.fin 1000) = none := by
  have hbox : (Aabb.surroundingBox ((Bvh.prim cStat).boundingBox 0 1)
      ((Bvh.prim cMove).boundingBox 0 1)).hit cRay (.fin 0.001) (.fin 1000) = false := by
    norm_num [cStat, cMove, cRay, Bvh.boundingBox, Prim.boundingBox, msCenter,
      Aabb.surroundingBox, min_def, max_def, Aabb.hit, slabAxis, fpInv,
      FP.mulR, FP.blt]
  rw [cTree, Bvh.hit, hbox]
  rfl

theorem cWorld_hit :
    World.hit [cMove, cStat] cRay (.fin 0.001) (.fin 1000) = some cRec := by
  have h1 : Prim.hit cMove cRay (.fin 0.001) (.fin 1000) = some cRec := by
    simp only [cMove, cRay, cRec, Prim.hit, hitSphere, msCenter, Vec3.sub_def,
      Vec3.dot, Vec3.length_squared, Ray.at, Vec3.smul_def, Vec3.add_def,
      Vec3.div_def]
    norm_num [FP.blt, Real.sqrt_one]
  have h2 : Prim.hit cStat cRay (.fin 0.001) (.fin 1000) = none := by
    simp only [cStat, cRay, Prim.hit, hitSphere, Vec3.sub_def, Vec3.dot,
      Vec3.length_squared]
    norm_num
  simp only [World.hit, List.filterMap, h1, h2, min_by_t, List.foldl]

/-- **C1 counterexample**: the claim fails as stated.  For the scene
`[cMove, cStat]` of two primitives (each with a bounding box), the build
interval `[0, 1]` and the ray `cRay` whose time is `100`, the BVH prunes
the root (the moving sphere's build-time box does not cover its position at
time `100`) and returns no hit, while the brute-force linear scan returns
the hit at `t = 2` — so the two sides differ. -/
theorem bvh_world_hit_disagree :
    (2 ≤ ([cMove, cStat] : List Prim).length ∧
      ([cMove, cStat] : List Prim).length ≤ 200) ∧
    makeTree [cMove, cStat] 0 1 (fun _ => 0) 0 = .ok cTree 1 ∧
    Bvh.hit cTree cRay (.fin 0.001) (.fin 1000) = none ∧
    World.hit [cMove, cStat] cRay (.fin 0.001) (.fin 1000) = some cRec ∧
    (Bvh.hit cTree cRay (.fin 0.001) (.fin 1000)).map (·.t) ≠
      (World.hit [cMove, cStat] cRay (.fin 0.001) (.fin 1000)).map (·.t) := by
  refine ⟨⟨by norm_num, by norm_num⟩, cMk, cTree_hit_none, cWorld_hit, ?_⟩
  rw [cTree_hit_none, cWorld_hit]
  simp

/-! ### Claim C4 -/

/-- **C4 counterexample**: `AABB::hit` is *not* exact.  For the unit box
`[0,1]³`, the ray with origin `(2,-3,1/2)` and direction `(-1,1,0)` and the
bounds `[0, 100]`, the slab test reports a hit although the ray's line meets
the x-slab only for `t ∈ [1,2]` and the y-slab only for `t ∈ [3,4]`, so no
point of the line inside the bounds lies in the box.  (The cause: the
narrowed `t_min`/`t_max` of the source are loop-local shadows, so the axis
intervals are never intersected with each other.) -/
theorem aabb_hit_not_exact :
    Aabb.hit ⟨⟨0, 0, 0⟩, ⟨1, 1, 1⟩⟩ ⟨⟨2, -3, 1/2⟩, ⟨-1, 1, 0⟩, 0⟩
        (.fin 0) (.fin 100) = true ∧
    ¬ specBoxIntersect ⟨⟨0, 0, 0⟩, ⟨1, 1, 1⟩⟩ ⟨⟨2, -3, 1/2⟩, ⟨-1, 1, 0⟩, 0⟩ 0 100 := by
  constructor
  · norm_num [Aabb.hit, slabAxis, fpInv, FP.mulR, FP.blt]
  · rintro ⟨t, ht0, ht1, hp⟩
    rcases hp with ⟨hx1, hx2, hy1, hy2, _, _⟩
    simp only [Ray.at, Vec3.add_def, Vec3.smul_def] at hx1 hx2 hy1 hy2
    norm_num at hx1 hx2 hy1 hy2
    linarith

/-- **C4** (amended): `AABB::hit` is complete but not exact: it returns
`true` *whenever* the ray's parametric line intersects the box within
`[t_min, t_max]` — including a ray origin inside the box and a ray parallel
to a box face, the latter through the IEEE division-by-zero infinity
arithmetic modelled in `fpInv`/`FP.mulR`, with near/far swapped when the
inverse direction component is negative — but not *only* then: each axis
slab is compared against the original `[t_min, t_max]` independently
(the narrowed bounds are loop-local shadows and are not carried to the next
axis), so it can also return `true` when the per-axis intervals are
pairwise compatible with the bounds yet have empty joint intersection
(see `aabb_hit_not_exact`). -/
theorem aabb_hit_complete_of_intersect (b : Aabb) (r : Ray) (t_min t_max : ℝ)
    (h : specBoxIntersect b r t_min t_max) :
    b.hit r (.fin t_min) (.fin t_max) = true := by
  rcases h with ⟨t, ht0, ht1, hp⟩
  exact aabb_hit_complete b r _ _ t (Or.inr ⟨t_min, rfl, ht0⟩)
    (Or.inr ⟨t_max, rfl, ht1⟩) hp

/-- Witness for the amended C4: the unit box, a ray through it, bounds
`[0, 10]`. -/
theorem aabb_hit_complete_of_intersect_witness :
    specBoxIntersect ⟨⟨0, 0, 0⟩, ⟨1, 1, 1⟩⟩ ⟨⟨0, 0, -2⟩, ⟨0, 0, 1⟩, 0⟩ 0 10 ∧
    Aabb.hit ⟨⟨0, 0, 0⟩, ⟨1, 1, 1⟩⟩ ⟨⟨0, 0, -2⟩, ⟨0, 0, 1⟩, 0⟩
      (.fin 0) (.fin 10) = true := by
  have hs : specBoxIntersect ⟨⟨0, 0, 0⟩, ⟨1, 1, 1⟩⟩ ⟨⟨0, 0, -2⟩, ⟨0, 0, 1⟩, 0⟩ 0 10 :=
    ⟨2, by norm_num, by norm_num, by norm_num [inAabb, Ray.at]⟩
  exact ⟨hs, aabb_hit_complete_of_intersect _ _ _ _ hs⟩

/-! ### Claim C2 -/

/-- **C2**: `ray_color` is depth-bounded.  Whenever the depth counter has
reached (in particular, exceeds) the fixed cap `MAX_CHILD_RAY_DEPTH = 50` it
returns black `(0,0,0)` without hit-testing or recursing (first conjunct),
and for every starting depth it equals the fuel-indexed variant run with
fuel `50 - depth`, whose recursion is structural on the fuel — so every
recursive call passes `depth + 1` and the recursion terminates with nesting
depth at most `50` (second conjunct). -/
theorem ray_color_depth_bounded :
    (∀ world ray g k depth, MAX_CHILD_RAY_DEPTH ≤ depth →
        rayColor world ray g k depth = ⟨0, 0, 0⟩) ∧
    (∀ world ray g k depth,
        rayColor world ray g k depth =
          rayColorFuel (MAX_CHILD_RAY_DEPTH - depth) world ray g k depth) := by
  refine ⟨fun world ray g k depth h => ?_, fun world ray g k depth => ?_⟩
  · rw [rayColor, dif_pos h]
  · exact rayColor_eq_fuel _ world ray g k depth rfl

/-- Witness for C2 at a concrete ray, scene and depth. -/
theorem ray_color_depth_bounded_witness :
    rayColor [] ⟨⟨0, 0, 0⟩, ⟨0, 0, 1⟩, 0⟩ (fun _ => 0) 0 50 = ⟨0, 0, 0⟩ ∧
    rayColor [] ⟨⟨0, 0, 0⟩, ⟨0, 0, 1⟩, 0⟩ (fun _ => 0) 0 50 =
      rayColorFuel 0 [] ⟨⟨0, 0, 0⟩, ⟨0, 0, 1⟩, 0⟩ (fun _ => 0) 0 50 :=
  ⟨ray_color_depth_bounded.1 _ _ _ _ 50 (by norm_num [MAX_CHILD_RAY_DEPTH]),
   ray_color_depth_bounded.2 _ _ _ _ 50⟩

/-! ### Claim C8 -/

/-- **C8**: for a camera constructed with `aperture = 0`, `Camera::get_ray`
returns a ray whose origin exactly equals `look_from`, for every viewport
coordinate pair `(s, t)` and every outcome of the lens and time random
draws. -/
theorem zero_aperture_ray_origin (settings : CameraSettings) (aspect_ratio s t : ℝ)
    (disk : Vec3) (time : ℝ) (h : settings.aperture = 0) :
    ((Camera.new settings aspect_ratio).getRay s t disk time).origin = settings.look_from := by
  simp only [Camera.new, Camera.getRay]
  ext <;> simp [h]

/-- Witness for C8 at a concrete camera, viewport point and draw outcome. -/
theorem zero_aperture_ray_origin_witness :
    ((Camera.new ⟨⟨13, 2, 3⟩, ⟨0, 0, 0⟩, ⟨0, 1, 0⟩, 20, 0, 10, 0, 1⟩ 1.5).getRay
        0.3 0.7 ⟨0.5, 0.25, 0⟩ 0.4).origin = ⟨13, 2, 3⟩ :=
  zero_aperture_ray_origin ⟨⟨13, 2, 3⟩, ⟨0, 0, 0⟩, ⟨0, 1, 0⟩, 20, 0, 10, 0, 1⟩ 1.5
    0.3 0.7 ⟨0.5, 0.25, 0⟩ 0.4 rfl

/-! ### Claim C9 -/

/-- **C9**: for every vector `v` and every unit-length normal `n`,
`Vec3::reflect` is an involution about `n`: `reflect(reflect(v, n), n) = v`. -/
theorem reflect_involution (v n : Vec3) (h : n.length = 1) :
    (v.reflect n).reflect n = v := by
  have hS : n.x * n.x + n.y * n.y + n.z * n.z = 1 := by
    rw [Vec3.length, Real.sqrt_eq_one] at h
    simpa [Vec3.length_squared] using h
  ext
  · simp [Vec3.reflect, Vec3.dot]
    linear_combination (4 * (v.x * n.x + v.y * n.y + v.z * n.z) * n.x) * hS
  · simp [Vec3.reflect, Vec3.dot]
    linear_combination (4 * (v.x * n.x + v.y * n.y + v.z * n.z) * n.y) * hS
  · simp [Vec3.reflect, Vec3.dot]
    linear_combination (4 * (v.x * n.x + v.y * n.y + v.z * n.z) * n.z) * hS

/-- Witness for C9 at a concrete vector and unit normal. -/
theorem reflect_involution_witness :
    ((⟨1, 2, 3⟩ : Vec3).reflect ⟨0, 0, 1⟩).reflect ⟨0, 0, 1⟩ = ⟨1, 2, 3⟩ :=
  reflect_involution ⟨1, 2, 3⟩ ⟨0, 0, 1⟩
    (by simp [Vec3.length, Vec3.length_squared])

/-! ### Claim C3 -/

theorem length_squared_pos {v : Vec3} (h : v ≠ ⟨0, 0, 0⟩) : 0 < v.length_squared := by
  rcases lt_or_eq_of_le (by nlinarith [sq_nonneg v.x, sq_nonneg v.y, sq_nonneg v.z] :
    (0 : ℝ) ≤ v.x * v.x + v.y * v.y + v.z * v.z) with hlt | heq
  · exact hlt
  · exfalso
    apply h
    have hx : v.x = 0 := by nlinarith [sq_nonneg v.x, sq_nonneg v.y, sq_nonneg v.z]
    have hy : v.y = 0 := by nlinarith [sq_nonneg v.x, sq_nonneg v.y, sq_nonneg v.z]
    have hz : v.z = 0 := by nlinarith [sq_nonneg v.x, sq_nonneg v.y, sq_nonneg v.z]
    ext <;> assumption

/-- For a positive leading coefficient and nonnegative discriminant, the
roots of `a·t² + 2·hb·t + c` are exactly `(-hb ∓ √disc) / a`. -/
theorem quad_root_iff (a hb c t : ℝ) (ha : 0 < a) (hd : 0 ≤ hb * hb - a * c) :
    a * t ^ 2 + 2 * hb * t + c = 0 ↔
      t = (-hb - Real.sqrt (hb * hb - a * c)) / a ∨
      t = (-hb + Real.sqrt (hb * hb - a * c)) / a := by
  have hs2 : Real.sqrt (hb * hb - a * c) ^ 2 = hb * hb - a * c := Real.sq_sqrt hd
  constructor
  · intro h
    have h1 : (a * t + hb - Real.sqrt (hb * hb - a * c)) *
        (a * t + hb + Real.sqrt (hb * hb - a * c)) = 0 := by
      linear_combination a * h - hs2
    rcases mul_eq_zero.1 h1 with h2 | h2
    · right
      field_simp
      linarith
    · left
      field_simp
      linarith
  · intro h
    rcases h with h | h <;> subst h <;> field_simp <;> linear_combination a ^ 2 * hs2

/-- **C3**: `Sphere::hit` solves the quadratic `a·t² + 2·half_b·t + c = 0`
for the ray against the sphere: it returns `None` when the discriminant is
negative (first conjunct); any returned record's `t` is a root of the
quadratic, lies strictly inside `(t_min, t_max)`, has hit point `ray.at(t)`
and is the *first* (least) root inside the interval, the roots being tried
in ascending order (second conjunct); and `None` is returned exactly when no
root lies strictly inside the interval (third conjunct).  The direction is
required to be nonzero so that the quadratic is a genuine quadratic (a zero
direction would make the source divide by `a = 0`). -/
theorem sphere_hit_first_root (center : Vec3) (radius : ℝ) (material : Material)
    (r : Ray) (t_min t_max : ℝ) (hdir : r.dir ≠ ⟨0, 0, 0⟩) :
    (sphereDiscriminant center radius r < 0 →
        hitSphere center radius material r (.fin t_min) (.fin t_max) = none) ∧
    (∀ rec, hitSphere center radius material r (.fin t_min) (.fin t_max) = some rec →
        sphereA r * rec.t ^ 2 + 2 * sphereHalfB center r * rec.t +
            sphereCoefC center radius r = 0 ∧
        t_min < rec.t ∧ rec.t < t_max ∧ rec.point = r.at rec.t ∧
        ∀ t', sphereA r * t' ^ 2 + 2 * sphereHalfB center r * t' +
            sphereCoefC center radius r = 0 →
          t_min < t' → t' < t_max → rec.t ≤ t') ∧
    (hitSphere center radius material r (.fin t_min) (.fin t_max) = none →
        ∀ t', sphereA r * t' ^ 2 + 2 * sphereHalfB center r * t' +
            sphereCoefC center radius r = 0 →
          ¬(t_min < t' ∧ t' < t_max)) := by
  have ha : 0 < r.dir.length_squared := length_squared_pos hdir
  simp only [hitSphere, sphereDiscriminant, sphereA, sphereHalfB, sphereCoefC] at *
  set a := r.dir.length_squared with ha_def
  set hb := (r.origin - center).dot r.dir with hb_def
  set c := (r.origin - center).length_squared - radius * radius with hc_def
  rcases lt_or_le (hb * hb - a * c) 0 with hdisc | hdisc
  · refine ⟨fun _ => by rw [if_pos hdisc], ?_, ?_⟩
    · intro rec hrec
      rw [if_pos hdisc] at hrec
      exact absurd hrec (by simp)
    · intro _ t' hroot _
      have key : (a * t' + hb) ^ 2 = hb * hb - a * c := by linear_combination a * hroot
      nlinarith [sq_nonneg (a * t' + hb)]
  · rw [if_neg (not_lt.2 hdisc)]
    simp only [FP.blt_fin_fin, Bool.and_eq_true, decide_eq_true_eq]
    set s := Real.sqrt (hb * hb - a * c) with hs_def
    have hs0 : 0 ≤ s := Real.sqrt_nonneg _
    have ht12 : (-hb - s) / a ≤ (-hb + s) / a := by
      rw [div_le_div_iff₀ ha ha]
      nlinarith [mul_nonneg hs0 ha.le]
    refine ⟨fun h => absurd h (not_lt.2 hdisc), ?_, ?_⟩
    · intro rec hrec
      by_cases h1 : t_min < (-hb - s) / a ∧ (-hb - s) / a < t_max
      · rw [if_pos h1] at hrec
        cases hrec
        refine ⟨(quad_root_iff a hb c _ ha hdisc).mpr (Or.inl rfl), h1.1, h1.2, rfl, ?_⟩
        intro t' hroot _ _
        rcases (quad_root_iff a hb c t' ha hdisc).mp hroot with h | h <;> rw [h]
        exact ht12
      · rw [if_neg h1] at hrec
        by_cases h2 : t_min < (-hb + s) / a ∧ (-hb + s) / a < t_max
        · rw [if_pos h2] at hrec
          cases hrec
          refine ⟨(quad_root_iff a hb c _ ha hdisc).mpr (Or.inr rfl), h2.1, h2.2, rfl, ?_⟩
          intro t' hroot hlo hhi
          rcases (quad_root_iff a hb c t' ha hdisc).mp hroot with h | h
          · exact absurd ⟨h ▸ hlo, h ▸ hhi⟩ h1
          · rw [h]
        · rw [if_neg h2] at hrec
          exact absurd hrec (by simp)
    · intro hnone t' hroot hint
      by_cases h1 : t_min < (-hb - s) / a ∧ (-hb - s) / a < t_max
      · rw [if_pos h1] at hnone
        exact absurd hnone (by simp)
      · rw [if_neg h1] at hnone
        by_cases h2 : t_min < (-hb + s) / a ∧ (-hb + s) / a < t_max
        · rw [if_pos h2] at hnone
          exact absurd hnone (by simp)
        · rcases (quad_root_iff a hb c t' ha hdisc).mp hroot with h | h
          · exact h1 ⟨h ▸ hint.1, h ▸ hint.2⟩
          · exact h2 ⟨h ▸ hint.1, h ▸ hint.2⟩

/-- Witness for C3: the unit sphere at the origin and the ray from
`(0,0,-3)` along `+z` with bounds `(0, 10)`: the returned root is `t = 2`,
it solves the quadratic, lies strictly inside the interval, the hit point is
`ray.at(2)`, and it is the least root inside the interval. -/
theorem sphere_hit_first_root_witness :
    (Vec3.mk 0 0 1 ≠ ⟨0, 0, 0⟩) ∧
    (sphereA ⟨⟨0, 0, -3⟩, ⟨0, 0, 1⟩, 0⟩ * (2 : ℝ) ^ 2 +
        2 * sphereHalfB ⟨0, 0, 0⟩ ⟨⟨0, 0, -3⟩, ⟨0, 0, 1⟩, 0⟩ * 2 +
        sphereCoefC ⟨0, 0, 0⟩ 1 ⟨⟨0, 0, -3⟩, ⟨0, 0, 1⟩, 0⟩ = 0) ∧
    (0 : ℝ) < 2 ∧ (2 : ℝ) < 10 ∧
    (Vec3.mk 0 0 (-1) = Ray.at ⟨⟨0, 0, -3⟩, ⟨0, 0, 1⟩, 0⟩ 2) ∧
    (∀ t', sphereA ⟨⟨0, 0, -3⟩, ⟨0, 0, 1⟩, 0⟩ * t' ^ 2 +
        2 * sphereHalfB ⟨0, 0, 0⟩ ⟨⟨0, 0, -3⟩, ⟨0, 0, 1⟩, 0⟩ * t' +
        sphereCoefC ⟨0, 0, 0⟩ 1 ⟨⟨0, 0, -3⟩, ⟨0, 0, 1⟩, 0⟩ = 0 →
      0 < t' → t' < 10 → (2 : ℝ) ≤ t') := by
  have hdir : (Vec3.mk 0 0 1) ≠ ⟨0, 0, 0⟩ := by norm_num [Vec3.mk.injEq]
  have hEq : hitSphere ⟨0, 0, 0⟩ 1 (.lambertian (.solidColor ⟨1, 1, 1⟩))
      ⟨⟨0, 0, -3⟩, ⟨0, 0, 1⟩, 0⟩ (.fin 0) (.fin 10) =
      some ⟨⟨0, 0, -1⟩, ⟨0, 0, -1⟩, 2, true,
        .lambertian (.solidColor ⟨1, 1, 1⟩)⟩ := by
    simp only [hitSphere, Vec3.sub_def, Vec3.dot, Vec3.length_squared, Ray.at,
      Vec3.smul_def, Vec3.add_def, Vec3.div_def]
    norm_num [FP.blt, Real.sqrt_one]
  have h := (sphere_hit_first_root ⟨0, 0, 0⟩ 1 (.lambertian (.solidColor ⟨1, 1, 1⟩))
      ⟨⟨0, 0, -3⟩, ⟨0, 0, 1⟩, 0⟩ 0 10 hdir).2.1 _ hEq
  exact ⟨hdir, h.1, h.2.1, h.2.2.1, h.2.2.2.1, h.2.2.2.2⟩

/-! ### Claim C6 -/

/-- **C6** (the code evaluated at the failing input): the record a hit test
produces consists of exactly the five fields `point`, `normal`, `t`,
`front_face` and `material` — the `HitRecord` struct of `src/hittable.rs`
(embedded above as `HitRecord`) declares no `u`/`v` texture-coordinate
fields and the hit tests compute none, although `Lambertian::scatter` in
`src/material.rs` reads `rec.u` and `rec.v`; the crate as given therefore
does not even compile, and the claimed attenuation
`texture.value(rec.u, rec.v, rec.point)` cannot be produced from any record
a hit test returns. -/
theorem hit_record_has_five_fields :
    Prim.hit (.sphere ⟨0, 0, 0⟩ 1 (.metal ⟨1, 1, 1⟩ 0)) ⟨⟨0, 0, -3⟩, ⟨0, 0, 1⟩, 0⟩
        (.fin 0) (.fin 10) =
      some (HitRecord.mk ⟨0, 0, -1⟩ ⟨0, 0, -1⟩ 2 true (.metal ⟨1, 1, 1⟩ 0)) := by
  simp only [Prim.hit, hitSphere, Vec3.sub_def, Vec3.dot, Vec3.length_squared,
    Ray.at, Vec3.smul_def, Vec3.add_def, Vec3.div_def]
  norm_num [FP.blt, Real.sqrt_one]

/-! ### Claim C10 -/

/-- **C10**: the self-intersection guard.  Every scene hit query issued by
`ray_color` uses the fixed bounds `t_min = 0.001` and `t_max = +∞` (second
conjunct: the unfolding of `ray_color`, whose only hit query is
`World::hit` at exactly those bounds), and any record such a query returns
has `t > 0.001` (first conjunct) — so an intersection at `t ≤ 0.001` is
never reported, never scatters and never contributes to the color. -/
theorem ray_color_t_min_guard :
    (∀ world ray rec, World.hit world ray (.fin 0.001) (.inf true) = some rec →
        (0.001 : ℝ) < rec.t) ∧
    (∀ world ray g k depth,
        rayColor world ray g k depth =
          if MAX_CHILD_RAY_DEPTH ≤ depth then ⟨0, 0, 0⟩
          else
            match World.hit world ray (.fin 0.001) (.inf true) with
            | some rec =>
                match Material.scatter rec.material ray rec g k with
                | (some (ray', attenuation), k') =>
                    attenuation * rayColor world ray' g k' (depth + 1)
                | (none, _) => ⟨0, 0, 0⟩
            | none => skyColor ray) := by
  constructor
  · intro world ray rec h
    rcases World.hit_mem h with ⟨p, _, hp⟩
    have hb := (Prim.hit_some hp).1
    simpa using hb
  · intro world ray g k depth
    rw [rayColor]
    by_cases h : MAX_CHILD_RAY_DEPTH ≤ depth
    · rw [dif_pos h, if_pos h]
    · rw [dif_neg h, if_neg h]

/-- Witness for C10: a concrete unit sphere and a ray hitting it at `t = 2`;
the returned parameter is `> 0.001`. -/
theorem ray_color_t_min_guard_witness :
    World.hit [.sphere ⟨0, 0, 0⟩ 1 (.lambertian (.solidColor ⟨1, 1, 1⟩))]
        ⟨⟨0, 0, -3⟩, ⟨0, 0, 1⟩, 0⟩ (.fin 0.001) (.inf true) =
      some ⟨⟨0, 0, -1⟩, ⟨0, 0, -1⟩, 2, true,
        .lambertian (.solidColor ⟨1, 1, 1⟩)⟩ ∧
    (0.001 : ℝ) <
      (HitRecord.mk ⟨0, 0, -1⟩ ⟨0, 0, -1⟩ 2 true
        (.lambertian (.solidColor ⟨1, 1, 1⟩))).t := by
  have hweq : World.hit [.sphere ⟨0, 0, 0⟩ 1 (.lambertian (.solidColor ⟨1, 1, 1⟩))]
      ⟨⟨0, 0, -3⟩, ⟨0, 0, 1⟩, 0⟩ (.fin 0.001) (.inf true) =
      some ⟨⟨0, 0, -1⟩, ⟨0, 0, -1⟩, 2, true,
        .lambertian (.solidColor ⟨1, 1, 1⟩)⟩ := by
    simp only [World.hit, List.filterMap, Prim.hit, hitSphere, Vec3.sub_def, Vec3.dot,
      Vec3.length_squared, Ray.at, Vec3.smul_def, Vec3.add_def, Vec3.div_def, min_by_t]
    norm_num [FP.blt, Real.sqrt_one, min_by_t]
  exact ⟨hweq, ray_color_t_min_guard.1 _ _ _ hweq⟩

end RayTracing
